import Mathlib

/-!
Verification of the resource-accounting core of the yunikorn scheduler
(`pkg/common/resources/resources.go`).

Modelling conventions, used throughout:

* Go's `Quantity` (`int64`) is modelled as `Int` together with the explicit
  two's-complement wrap `wrap64` at every operation where Go arithmetic can
  overflow, and the range predicate `inRange`.
* Go's `map[string]Quantity` is modelled as an association list
  `List (String × Int)`; Go guarantees distinct keys, which appears as a
  `Nodup` hypothesis on the key list where a theorem needs it.
* A Go `*Resource` pointer is `Option (List (String × Int))`, `none` being
  `nil`.  Operations on values never mutate, mirroring the value-semantics
  reading; the aliasing/frame claims are settled on a separate explicit
  heap model near the end of the file.
* Go `float64` values produced by the share / ratio functions are modelled
  as exact rational numbers (`ℚ`); the IEEE special values produced by a
  division of finite floats are modelled explicitly by `FVal`.  Conversion
  from float to integer truncates toward zero (`truncQ`), as in Go.
-/

namespace YuniKorn

/-- `math.MinInt64`. -/
def minI64 : Int := -(2 ^ 63)

/-- `math.MaxInt64`. -/
def maxI64 : Int := 2 ^ 63 - 1

/-- `math.MaxInt32`. -/
def maxI32 : Int := 2 ^ 31 - 1

/-- The value is representable as a signed 64-bit integer. -/
def inRange (x : Int) : Prop := minI64 ≤ x ∧ x ≤ maxI64

instance (x : Int) : Decidable (inRange x) := by unfold inRange; infer_instance

/-- Two's-complement wrap-around of Go `int64` arithmetic. -/
def wrap64 (x : Int) : Int := (x + 2 ^ 63) % 2 ^ 64 - 2 ^ 63

/-- Spec-side clamp to the nearest representable `int64` bound. -/
def clampI (x : Int) : Int :=
  if x < minI64 then minI64 else if maxI64 < x then maxI64 else x

/-- Go division on `int64`: truncated division, whose only overflowing case
`MinInt64 / -1` wraps back to `MinInt64` (as the Go specification defines). -/
def div64 (a b : Int) : Int := wrap64 (a.tdiv b)

/-- Go's `!=` between the results of two boolean tests. -/
def neTest (p q : Prop) [Decidable p] [Decidable q] : Prop := ¬(p ↔ q)

instance (p q : Prop) [Decidable p] [Decidable q] : Decidable (neTest p q) := by
  unfold neTest; infer_instance

/-- `addVal` from resources.go: wrapping add, sign-change detection, and clamp
to `MinInt64`/`MaxInt64` on overflow. -/
def addVal (valA valB : Int) : Int :=
  let result := wrap64 (valA + valB)
  if neTest (result < valA) (valB < 0) then
    if valA < 0 then minI64 else maxI64
  else result

/-- `subVal` from resources.go: literally `addVal(valA, -valB)`, where the Go
negation of `valB` itself wraps (so `-MinInt64 = MinInt64`). -/
def subVal (valA valB : Int) : Int := addVal valA (wrap64 (-valB))

/-- `mulVal` from resources.go: zero short-circuit, wrapping multiply,
division-based overflow detection with the documented `MinInt64 * -1`
special case, and clamp by the signs of the operands. -/
def mulVal (valA valB : Int) : Int :=
  if valA = 0 ∨ valB = 0 then 0
  else
    let result := wrap64 (valA * valB)
    if div64 result valB ≠ valA ∨ (valA = minI64 ∧ valB = -1) then
      if neTest (valA < 0) (valB < 0) then minI64 else maxI64
    else result

/-- Go conversion of a numeric value to an integer: truncation toward zero. -/
def truncQ (q : ℚ) : Int := if q < 0 then -(⌊-q⌋) else ⌊q⌋

/-- `mulValRatio` from resources.go, with the `float64` intermediate
modelled as exact rational arithmetic: zero short-circuit, guard against
both overflow directions, then truncating conversion back to `int64`. -/
def mulValRatio (value : Int) (ratio : ℚ) : Int :=
  if value = 0 ∨ ratio = 0 then 0
  else
    let result : ℚ := (value : ℚ) * ratio
    if (maxI64 : ℚ) < result then maxI64
    else if result < (minI64 : ℚ) then minI64
    else truncQ result

/-! ### The resource vector model

A Go `map[string]Quantity` is an association list with distinct keys; a Go
`*Resource` is `Option` of such a list (`none` = `nil`).  The Go map update
`m[k] = v` is `setVal`; the Go read `m[k]` (with zero default) is `lookD`;
the Go two-result read `v, ok := m[k]` is `lookV`. -/

abbrev ResMap := List (String × Int)

abbrev Resource := Option ResMap

def lookV : ResMap → String → Option Int
  | [], _ => none
  | kv :: rest, k => if kv.1 = k then some kv.2 else lookV rest k

def lookD (m : ResMap) (k : String) : Int := (lookV m k).getD 0

def setVal : ResMap → String → Int → ResMap
  | [], k, v => [(k, v)]
  | kv :: rest, k, v => if kv.1 = k then (k, v) :: rest else kv :: setVal rest k v

def keys (m : ResMap) : List String := m.map Prod.fst

/-- Go maps have distinct keys; this is the invariant a `ResMap` carries. -/
def keysND (m : ResMap) : Prop := (keys m).Nodup

instance (m : ResMap) : Decidable (keysND m) := by
  unfold keysND; infer_instance

/-- All quantities in the map are valid `int64` values. -/
def valsOK (m : ResMap) : Prop := ∀ kv ∈ m, inRange kv.2

/-- The invariant of a Go `*Resource`: distinct keys and `int64` values. -/
def resOK (res : Resource) : Prop := keysND (res.getD []) ∧ valsOK (res.getD [])

instance (res : Resource) : Decidable (resOK res) := by
  unfold resOK valsOK; infer_instance

/-- A Go `for k, v := range es` loop that conditionally updates an
accumulator map: at each entry the body may read the accumulator's current
value for that key and either skip the entry or store a new value. -/
def forRange (init : ResMap) (es : ResMap) (g : Int → String × Int → Option Int) :
    ResMap :=
  es.foldl (fun out kv =>
    match g (lookD out kv.1) kv with
    | none => out
    | some w => setVal out kv.1 w) init

/-- The loop body of `fitIn` from resources.go. -/
def fitInLoop (rmap : ResMap) (skipUndef : Bool) : ResMap → Bool
  | [] => true
  | kv :: rest =>
    if skipUndef = true ∧ lookV rmap kv.1 = none then fitInLoop rmap skipUndef rest
    else if max 0 (lookD rmap kv.1) < kv.2 then false
    else fitInLoop rmap skipUndef rest

/-- `fitIn` from resources.go: a nil receiver is replaced by the empty
`Zero` vector, a nil `smaller` always fits, otherwise every entry of
`smaller` is checked against the receiver's (clamped-at-zero) value. -/
def fitIn (r smaller : Resource) (skipUndef : Bool) : Bool :=
  match smaller with
  | none => true
  | some m => fitInLoop (r.getD []) skipUndef m

def FitIn (r smaller : Resource) : Bool := fitIn r smaller false

def FitInMaxUndef (r smaller : Resource) : Bool := fitIn r smaller true

/-- `Add` from resources.go: nil left becomes `Zero`, nil right returns a
clone of left, otherwise right's entries are added into a clone of left. -/
def Add (left right : Resource) : Resource :=
  match right with
  | none => some (left.getD [])
  | some r => some (forRange (left.getD []) r fun cur kv => some (addVal cur kv.2))

/-- `Sub` from resources.go, the same shape as `Add` with `subVal`. -/
def Sub (left right : Resource) : Resource :=
  match right with
  | none => some (left.getD [])
  | some r => some (forRange (left.getD []) r fun cur kv => some (subVal cur kv.2))

/-- `Multiply` from resources.go: nil base or zero ratio gives a fresh empty
resource, otherwise each entry is `mulVal`-multiplied into a fresh result. -/
def Multiply (base : Resource) (ratio : Int) : Resource :=
  match base with
  | none => some []
  | some m =>
    if ratio = 0 then some []
    else some (forRange [] m fun _ kv => some (mulVal kv.2 ratio))

/-- `DeepEquals` from resources.go: two nil pointers are equal, one nil is
unequal, otherwise the lengths must match and every left entry must be
found in right with the same value. -/
def DeepEquals (left right : Resource) : Bool :=
  match left, right with
  | none, none => true
  | none, some _ => false
  | some _, none => false
  | some l, some r =>
    if r.length ≠ l.length then false
    else l.all fun kv =>
      match lookV r kv.1 with
      | some v => decide (v = kv.2)
      | none => false

/-- The per-entry share taken inside the `getShares` loop: the raw value
when `total` is nil or has a zero entry for the key, the quotient
otherwise.  `float64` is modelled as exact rational arithmetic. -/
def shareOf (total : Resource) (k : String) (v : Int) : ℚ :=
  match total with
  | none => (v : ℚ)
  | some t => if lookD t k = 0 then (v : ℚ) else (v : ℚ) / ((lookD t k : Int) : ℚ)

/-- `getShares` from resources.go.  The Go code allocates a slice of the
full map length, fills shares of nonzero entries from index 0 upward and
leaves the remaining slots at their zero initialisation, then sorts:
the result is (shares of nonzero entries) ++ (zero padding), sorted
ascending (`sort.Float64s`, modelled by insertion sort, which produces the
same sorted list). -/
def getShares (res total : Resource) : List ℚ :=
  match res with
  | none => []
  | some m =>
    if m.length = 0 then []
    else
      let filled := (m.filter fun kv => decide (kv.2 ≠ 0)).map
        fun kv => shareOf total kv.1 kv.2
      let shares := filled ++ List.replicate (m.length - filled.length) 0
      List.insertionSort (· ≤ ·) shares

/-- The four classes of `float64` value that the fairness computation can
produce: a finite value, the two infinities, and NaN. -/
inductive FVal where
  | fin : ℚ → FVal
  | posInf : FVal
  | negInf : FVal
  | nan : FVal
deriving DecidableEq

/-- IEEE-754 division of two finite `float64` values: `0/0` is NaN, a
nonzero value divided by zero is a signed infinity. -/
def fdiv (x y : ℚ) : FVal :=
  if y = 0 then
    if x = 0 then FVal.nan else if 0 < x then FVal.posInf else FVal.negInf
  else FVal.fin (x / y)

def isNaNF : FVal → Bool
  | FVal.nan => true
  | _ => false

/-- `lshares[len-1]` when the list is nonempty, `0` otherwise, as in
`FairnessRatio`. -/
def lastOrZero (l : List ℚ) : ℚ := l.getLast?.getD 0

/-- `FairnessRatio` from resources.go: the largest share on each side
(zero when a side has no shares), their IEEE quotient, with a NaN result
replaced by 1. -/
def FairnessRatio (left right total : Resource) : FVal :=
  let lshare := lastOrZero (getShares left total)
  let rshare := lastOrZero (getShares right total)
  let ratio := fdiv lshare rshare
  if isNaNF ratio then FVal.fin 1 else ratio

/-- The index walk of `compareShares` from resources.go, expressed as
recursion over the two share lists reversed (the Go code walks both lists
from their last index downward): the main loop compares heads while both
lists are nonempty, the two trailing loops scan the leftover side. -/
def cmpRev : List ℚ → List ℚ → Int
  | [], [] => 0
  | lx :: lrest, [] => if 0 < lx then 1 else if lx < 0 then -1 else cmpRev lrest []
  | [], rx :: rrest => if 0 < rx then -1 else if rx < 0 then 1 else cmpRev [] rrest
  | lx :: lrest, rx :: rrest =>
    if rx < lx then 1 else if lx < rx then -1 else cmpRev lrest rrest

def compareShares (lshares rshares : List ℚ) : Int :=
  cmpRev lshares.reverse rshares.reverse

/-- The value stored per key by `CalculateAbsUsedCapacity` (usage and
capacity both present): 0 for non-positive usage, 100 for non-positive
capacity, otherwise `usage/capacity*100` truncated, capped at MaxInt32. -/
def absUsedValue (capResource usedResource : Int) : Int :=
  if usedResource ≤ 0 then 0
  else if capResource ≤ 0 then 100
  else
    let d : ℚ := ((usedResource : ℚ) / (capResource : ℚ)) * 100
    if (maxI32 : ℚ) < d then maxI32 else truncQ d

/-- `CalculateAbsUsedCapacity` from resources.go: nil capacity or usage
gives a fresh empty resource; keys of `capacity` missing from `used` are
skipped; the rest store `absUsedValue`. -/
def CalculateAbsUsedCapacity (capacity used : Resource) : Resource :=
  match capacity, used with
  | some c, some u =>
    some (forRange [] c fun _ kv =>
      match lookV u kv.1 with
      | none => none
      | some uv => some (absUsedValue kv.2 uv))
  | _, _ => some []

/-- `ComponentWiseMin` from resources.go: both nil gives nil, one nil gives
a clone of the other, otherwise the two union loops with `min` (an entry
missing on the other side contributes this side's raw value). -/
def ComponentWiseMin (left right : Resource) : Resource :=
  match left, right with
  | none, none => none
  | none, some r => some r
  | some l, none => some l
  | some l, some r =>
    let pass1 := forRange [] l fun _ kv =>
      some (match lookV r kv.1 with
            | some val => min kv.2 val
            | none => kv.2)
    some (forRange pass1 r fun _ kv =>
      some (match lookV l kv.1 with
            | some val => min kv.2 val
            | none => kv.2))

/-- `ComponentWiseMax` from resources.go: the union loops with `max` run
only when both operands are non-nil; otherwise the freshly created empty
result is returned as is. -/
def ComponentWiseMax (left right : Resource) : Resource :=
  match left, right with
  | some l, some r =>
    let pass1 := forRange [] l fun _ kv => some (max kv.2 (lookD r kv.1))
    some (forRange pass1 r fun _ kv => some (max kv.2 (lookD l kv.1)))
  | _, _ => some []

/-! ### A heap model for the aliasing / no-mutation claims

Value-level definitions cannot express "does not mutate its argument", so
the free functions `Add`/`Sub` are additionally modelled against an
explicit heap: a list of map values indexed by address.  A Go `*Resource`
is an optional address; `Clone` allocates; the loop writes only to the
freshly allocated clone. -/

structure Heap where
  cells : List ResMap

def readH (σ : Heap) (a : Nat) : ResMap := (σ.cells[a]?).getD []

def writeH (σ : Heap) (a : Nat) (m : ResMap) : Heap := ⟨σ.cells.set a m⟩

def allocH (σ : Heap) (m : ResMap) : Heap × Nat := (⟨σ.cells ++ [m]⟩, σ.cells.length)

/-- `Clone` from resources.go on the heap: nil clones to nil, otherwise the
value is copied into a fresh cell. -/
def cloneH (σ : Heap) (p : Option Nat) : Heap × Option Nat :=
  match p with
  | none => (σ, none)
  | some a =>
    let res := allocH σ (readH σ a)
    (res.1, some res.2)

/-- The common shape of `Add` and `Sub` from resources.go on the heap:
a nil left operand is replaced by the address of the shared `Zero`
resource, a nil right operand returns a clone of left, otherwise right's
entries are combined into the freshly cloned output cell. -/
def heapBinOp (f : Int → Int → Int) (σ : Heap) (zeroAddr : Nat)
    (left right : Option Nat) : Heap × Option Nat :=
  let l : Option Nat := match left with | none => some zeroAddr | some a => some a
  match right with
  | none => cloneH σ l
  | some rb =>
    let c := cloneH σ l
    match c.2 with
    | none => c
    | some out =>
      let σ2 := (readH c.1 rb).foldl
        (fun τ kv =>
          writeH τ out (setVal (readH τ out) kv.1 (f (lookD (readH τ out) kv.1) kv.2)))
        c.1
      (σ2, some out)

def AddH : Heap → Nat → Option Nat → Option Nat → Heap × Option Nat :=
  heapBinOp addVal

def SubH : Heap → Nat → Option Nat → Option Nat → Heap × Option Nat :=
  heapBinOp subVal

/-- Spec-side helper for the amended C5: the largest element of a share
list, `0` when the list is empty. -/
def maxOrZero (l : List ℚ) : ℚ := (l.max?).getD 0

/-! ### Arithmetic facts about `wrap64` and the scalar calculators -/

theorem wrap64_inRange (x : Int) : inRange (wrap64 x) := by
  unfold wrap64 inRange minI64 maxI64
  have h1 : (0 : Int) ≤ (x + 2 ^ 63) % 2 ^ 64 := Int.emod_nonneg _ (by norm_num)
  have h2 : (x + 2 ^ 63) % 2 ^ 64 < 2 ^ 64 := Int.emod_lt_of_pos _ (by norm_num)
  omega

theorem wrap64_eq_self {x : Int} (h : inRange x) : wrap64 x = x := by
  unfold inRange minI64 maxI64 at h
  unfold wrap64
  rw [Int.emod_eq_of_lt (by omega) (by omega)]
  omega

theorem wrap64_period (x k : Int) : wrap64 (x + 2 ^ 64 * k) = wrap64 x := by
  unfold wrap64
  rw [show x + 2 ^ 64 * k + 2 ^ 63 = x + 2 ^ 63 + 2 ^ 64 * k by ring,
    Int.add_mul_emod_self_left]

theorem wrap64_spec (x : Int) : ∃ k : Int, wrap64 x = x - 2 ^ 64 * k := by
  refine ⟨(x + 2 ^ 63) / 2 ^ 64, ?_⟩
  unfold wrap64
  have := Int.emod_def (x + 2 ^ 63) (2 ^ 64)
  omega

theorem wrap64_eq_sub {x : Int} (h : inRange (x - 2 ^ 64)) :
    wrap64 x = x - 2 ^ 64 := by
  have hp := wrap64_period (x - 2 ^ 64) 1
  rw [show x - 2 ^ 64 + 2 ^ 64 * 1 = x by ring] at hp
  rw [hp, wrap64_eq_self h]

theorem wrap64_eq_add {x : Int} (h : inRange (x + 2 ^ 64)) :
    wrap64 x = x + 2 ^ 64 := by
  have hp := wrap64_period (x + 2 ^ 64) (-1)
  rw [show x + 2 ^ 64 + 2 ^ 64 * (-1) = x by ring] at hp
  rw [hp, wrap64_eq_self h]

/-- `addVal` computes the clamped mathematically-correct sum. -/
theorem addVal_correct {a b : Int} (ha : inRange a) (hb : inRange b) :
    addVal a b = clampI (a + b) := by
  unfold inRange minI64 maxI64 at ha hb
  obtain ⟨k, hk⟩ := wrap64_spec (a + b)
  have hR := wrap64_inRange (a + b)
  unfold inRange minI64 maxI64 at hR
  simp only [addVal, clampI, neTest, minI64, maxI64]
  rw [hk] at hR ⊢
  split_ifs <;> omega

theorem clampI_of_inRange {x : Int} (h : inRange x) : clampI x = x := by
  unfold inRange at h; unfold clampI; omega

theorem addVal_comm {a b : Int} (ha : inRange a) (hb : inRange b) :
    addVal a b = addVal b a := by
  rw [addVal_correct ha hb, addVal_correct hb ha, Int.add_comm]

theorem addVal_zero_left {b : Int} (hb : inRange b) : addVal 0 b = b := by
  have h0 : inRange 0 := by unfold inRange minI64 maxI64; omega
  rw [addVal_correct h0 hb, Int.zero_add, clampI_of_inRange hb]

/-- `subVal` is, definitionally, `addVal` of the wrapped negation. -/
theorem subVal_eq_addVal (a b : Int) : subVal a b = addVal a (wrap64 (-b)) := rfl

/-- For every subtrahend other than `MinInt64`, `subVal` computes the clamped
mathematically-correct difference. -/
theorem subVal_correct {a b : Int} (ha : inRange a) (hb : inRange b)
    (hbm : b ≠ minI64) : subVal a b = clampI (a - b) := by
  have hnb : inRange (-b) := by
    unfold inRange minI64 maxI64 at *; omega
  rw [subVal_eq_addVal, wrap64_eq_self hnb, addVal_correct ha hnb,
    Int.sub_eq_add_neg]

theorem tmod_abs_lt {w b : Int} (hb : b ≠ 0) : |Int.tmod w b| < |b| := by
  have hneg : ∀ u v : Int, Int.tmod (-u) v = -Int.tmod u v := fun u v => by
    rw [Int.tmod_def, Int.tmod_def, Int.neg_tdiv]; ring
  have hpos : ∀ (u : Int) {v : Int}, 0 < v → |Int.tmod u v| < |v| := by
    intro u v hv
    rcases le_or_lt 0 u with hu | hu
    · rw [abs_of_nonneg (Int.tmod_nonneg v hu), abs_of_pos hv]
      exact Int.tmod_lt_of_pos u hv
    · have h0 : (0 : Int) ≤ -u := by omega
      have h1 := Int.tmod_nonneg v h0
      have h2 := Int.tmod_lt_of_pos (-u) hv
      have h3 : Int.tmod u v = -Int.tmod (-u) v := by rw [hneg u v]; ring
      rw [h3, abs_neg, abs_of_nonneg h1, abs_of_pos hv]
      exact h2
  rcases lt_or_gt_of_ne hb with hb0 | hb0
  · have h4 : Int.tmod w b = Int.tmod w (-b) := (Int.tmod_neg w b).symm
    rw [h4, ← abs_neg b]
    exact hpos w (by omega : (0 : Int) < -b)
  · exact hpos w hb0

theorem tmod_natAbs_lt {w b : Int} (hb : b ≠ 0) :
    (Int.tmod w b).natAbs < b.natAbs := by
  have h := tmod_abs_lt (w := w) hb
  rw [Int.abs_eq_natAbs, Int.abs_eq_natAbs] at h
  exact_mod_cast h

/-- The overflow-detection in `mulVal` is sound and complete, so `mulVal`
computes the clamped mathematically-correct product (including the special
`MinInt64 * -1` case). -/
theorem mulVal_correct {a b : Int} (ha : inRange a) (hb : inRange b) :
    mulVal a b = clampI (a * b) := by
  by_cases hz : a = 0 ∨ b = 0
  · have h0 : a * b = 0 := by rcases hz with h | h <;> rw [h] <;> ring
    rw [h0]
    simp only [mulVal, if_pos hz]
    unfold clampI minI64 maxI64
    norm_num
  · push_neg at hz
    obtain ⟨ha0, hb0⟩ := hz
    by_cases hrep : inRange (a * b)
    · -- representable product: the detection does not fire
      have hw : wrap64 (a * b) = a * b := wrap64_eq_self hrep
      have hdiv : div64 (wrap64 (a * b)) b = a := by
        unfold div64
        rw [hw, Int.mul_tdiv_cancel a hb0, wrap64_eq_self ha]
      have hspecial : ¬(a = minI64 ∧ b = -1) := by
        rintro ⟨rfl, rfl⟩
        unfold inRange minI64 maxI64 at hrep
        norm_num at hrep
      have hcond : ¬(div64 (wrap64 (a * b)) b ≠ a ∨ (a = minI64 ∧ b = -1)) := by
        rw [hdiv]; simp [hspecial]
      simp only [mulVal]
      rw [if_neg (fun h => h.elim ha0 hb0), if_neg hcond, hw,
        clampI_of_inRange hrep]
    · -- overflowing product: the detection always fires
      have hR := wrap64_inRange (a * b)
      obtain ⟨k, hk⟩ := wrap64_spec (a * b)
      have hk0 : k ≠ 0 := by
        rintro rfl
        rw [show a * b - 2 ^ 64 * 0 = a * b by ring] at hk
        rw [hk] at hR
        exact hrep hR
      have hdet : div64 (wrap64 (a * b)) b ≠ a ∨ (a = minI64 ∧ b = -1) := by
        by_cases hcaseA : wrap64 (a * b) = minI64 ∧ b = -1
        · obtain ⟨hw_eq, hb_eq⟩ := hcaseA
          have hdv : div64 (wrap64 (a * b)) b = minI64 := by
            rw [hw_eq, hb_eq]
            unfold div64 minI64
            rw [show ((-(2 ^ 63) : Int)).tdiv (-1) = 2 ^ 63 by decide]
            apply wrap64_eq_sub
            unfold inRange minI64 maxI64; omega
          by_cases haMin : a = minI64
          · exact Or.inr ⟨haMin, hb_eq⟩
          · exact Or.inl (by rw [hdv]; exact fun hEq => haMin hEq.symm)
        · -- the truncated quotient is representable, so `div64` is exact
          refine Or.inl ?_
          intro hEq
          have htabs : ((wrap64 (a * b)).tdiv b).natAbs
              = (wrap64 (a * b)).natAbs / b.natAbs := Int.natAbs_tdiv _ _
          have hwabs : (wrap64 (a * b)).natAbs ≤ 2 ^ 63 := by
            unfold inRange minI64 maxI64 at hR; omega
          have htle : ((wrap64 (a * b)).tdiv b).natAbs ≤ 2 ^ 63 := by
            rw [htabs]; exact le_trans (Nat.div_le_self _ _) hwabs
          have htR : inRange ((wrap64 (a * b)).tdiv b) := by
            by_contra htout
            -- the only out-of-range value with |t| ≤ 2^63 is +2^63
            have ht63 : (wrap64 (a * b)).tdiv b = 2 ^ 63 := by
              unfold inRange minI64 maxI64 at htout; omega
            have hWeq : (wrap64 (a * b)).natAbs = 2 ^ 63 ∧ b.natAbs = 1 := by
              have hb1 : 0 < b.natAbs := by omega
              have h2 : (2 ^ 63 : Nat) ≤ (wrap64 (a * b)).natAbs / b.natAbs := by
                rw [← htabs, ht63]; norm_num
              have h3 := (Nat.le_div_iff_mul_le hb1).mp h2
              omega
            have hwmin : wrap64 (a * b) = minI64 := by
              unfold inRange minI64 maxI64 at hR; unfold minI64; omega
            have hbpm : b = 1 ∨ b = -1 := by omega
            rcases hbpm with rfl | rfl
            · rw [Int.tdiv_one, hwmin] at ht63
              unfold minI64 at ht63; omega
            · exact hcaseA ⟨hwmin, rfl⟩
          rw [div64, wrap64_eq_self htR] at hEq
          have hmod := Int.tdiv_add_tmod (wrap64 (a * b)) b
          rw [hEq] at hmod
          -- the remainder would have to be a nonzero multiple of 2^64
          have hmval : Int.tmod (wrap64 (a * b)) b = -(2 ^ 64) * k := by
            have h5 : b * a + Int.tmod (wrap64 (a * b)) b = a * b - 2 ^ 64 * k := by
              rw [← hk]; exact hmod
            rw [Int.mul_comm b a] at h5
            omega
          have hmlt := tmod_natAbs_lt (w := wrap64 (a * b)) hb0
          have hble : b.natAbs ≤ 2 ^ 63 := by
            unfold inRange minI64 maxI64 at hb; omega
          rw [hmval] at hmlt
          have h6 : (-(2 ^ 64) * k).natAbs = 2 ^ 64 * k.natAbs := by
            rw [Int.natAbs_mul, Int.natAbs_neg]; norm_num
          omega
      simp only [mulVal]
      rw [if_neg (fun h => h.elim ha0 hb0), if_pos hdet]
      unfold inRange minI64 maxI64 at hrep ha hb
      unfold neTest clampI minI64 maxI64
      by_cases hA : a < 0 <;> by_cases hB : b < 0
      · have hp : 0 < a * b := mul_pos_of_neg_of_neg hA hB
        rw [if_neg (by tauto)]
        split_ifs <;> omega
      · have hp : a * b < 0 :=
          mul_neg_of_neg_of_pos hA (by omega)
        rw [if_pos (by tauto)]
        split_ifs <;> omega
      · have hp : a * b < 0 :=
          mul_neg_of_pos_of_neg (by omega) hB
        rw [if_pos (by tauto)]
        split_ifs <;> omega
      · have hp : 0 < a * b := mul_pos (by omega) (by omega)
        rw [if_neg (by tauto)]
        split_ifs <;> omega

/-- `mulValRatio` (under the exact-arithmetic model of `float64`) computes
the toward-zero truncation of the product, clamped to the `int64` bounds. -/
theorem mulValRatio_correct (value : Int) (ratio : ℚ) :
    mulValRatio value ratio = clampI (truncQ ((value : ℚ) * ratio)) := by
  by_cases hz : value = 0 ∨ ratio = 0
  · have h0 : (value : ℚ) * ratio = 0 := by
      rcases hz with h | h <;> rw [h] <;> push_cast <;> ring
    rw [h0]
    have ht : truncQ 0 = 0 := by unfold truncQ; norm_num
    rw [ht]
    simp only [mulValRatio, if_pos hz]
    unfold clampI minI64 maxI64
    norm_num
  · simp only [mulValRatio, if_neg hz]
    by_cases hHigh : (maxI64 : ℚ) < (value : ℚ) * ratio
    · rw [if_pos hHigh]
      have hmax0 : (0 : ℚ) ≤ (maxI64 : ℚ) := by
        unfold maxI64; push_cast; norm_num
      have hq0 : ¬ ((value : ℚ) * ratio < 0) := by
        push_neg; exact le_trans hmax0 (le_of_lt hHigh)
      have htr : maxI64 ≤ truncQ ((value : ℚ) * ratio) := by
        unfold truncQ
        rw [if_neg hq0, Int.le_floor]
        exact le_of_lt hHigh
      unfold clampI minI64 maxI64 at *
      split_ifs <;> omega
    · rw [if_neg hHigh]
      by_cases hLow : (value : ℚ) * ratio < (minI64 : ℚ)
      · rw [if_pos hLow]
        have hmin0 : (minI64 : ℚ) < 0 := by
          unfold minI64; push_cast; norm_num
        have hq0 : (value : ℚ) * ratio < 0 := lt_trans hLow hmin0
        have htr : truncQ ((value : ℚ) * ratio) ≤ minI64 := by
          unfold truncQ
          rw [if_pos hq0]
          have hfl : (2 ^ 63 : Int) ≤ ⌊-((value : ℚ) * ratio)⌋ := by
            rw [Int.le_floor]
            unfold minI64 at hLow
            push_cast at hLow ⊢
            linarith
          unfold minI64
          omega
        unfold clampI minI64 maxI64 at *
        split_ifs <;> omega
      · rw [if_neg hLow]
        push_neg at hHigh hLow
        have htR : inRange (truncQ ((value : ℚ) * ratio)) := by
          unfold inRange
          unfold truncQ
          split_ifs with hq0
          · have h1 : (0 : Int) ≤ ⌊-((value : ℚ) * ratio)⌋ := by
              rw [Int.le_floor]; push_cast; linarith
            have h2 : ⌊-((value : ℚ) * ratio)⌋ ≤ 2 ^ 63 := by
              have h3 : -((value : ℚ) * ratio) ≤ ((2 ^ 63 : Int) : ℚ) := by
                unfold minI64 at hLow
                push_cast at hLow ⊢
                linarith
              have h4 := Int.floor_le_floor h3
              rwa [Int.floor_intCast] at h4
            unfold minI64 maxI64
            omega
          · push_neg at hq0
            have h1 : (0 : Int) ≤ ⌊(value : ℚ) * ratio⌋ := by
              rw [Int.le_floor]; push_cast; linarith
            have h2 : ⌊(value : ℚ) * ratio⌋ ≤ 2 ^ 63 - 1 := by
              have h3 : (value : ℚ) * ratio ≤ ((2 ^ 63 - 1 : Int) : ℚ) := by
                unfold maxI64 at hHigh
                push_cast at hHigh ⊢
                linarith
              have h4 := Int.floor_le_floor h3
              rwa [Int.floor_intCast] at h4
            unfold minI64 maxI64
            omega
        rw [clampI_of_inRange htR]

/-! ### Association-list map lemmas -/

theorem lookV_setVal_self (m : ResMap) (k : String) (v : Int) :
    lookV (setVal m k v) k = some v := by
  induction m with
  | nil => simp [setVal, lookV]
  | cons kv rest ih =>
    by_cases h : kv.1 = k
    · simp [setVal, h, lookV]
    · simp [setVal, h, lookV, ih]

theorem lookV_setVal_ne (m : ResMap) (k : String) (v : Int) {j : String}
    (h : j ≠ k) : lookV (setVal m k v) j = lookV m j := by
  induction m with
  | nil => simp [setVal, lookV, h.symm]
  | cons kv rest ih =>
    by_cases hk : kv.1 = k
    · subst hk
      simp [setVal, lookV, h.symm]
    · simp [setVal, hk, lookV, ih]

theorem keysND_cons {kv : String × Int} {rest : ResMap}
    (h : keysND (kv :: rest)) : ¬ kv.1 ∈ keys rest ∧ keysND rest := by
  unfold keysND keys at h ⊢
  simp only [List.map_cons, List.nodup_cons] at h
  exact h

theorem mem_keys_iff_lookV (m : ResMap) (k : String) :
    k ∈ keys m ↔ lookV m k ≠ none := by
  induction m with
  | nil => simp [keys, lookV]
  | cons kv rest ih =>
    simp only [keys, List.map_cons, List.mem_cons] at ih ⊢
    simp only [lookV]
    by_cases h : kv.1 = k
    · simp [h]
    · have h2 : ¬ k = kv.1 := fun hh => h hh.symm
      rw [if_neg h]
      simp only [h2, false_or]
      exact ih

theorem mem_of_lookV {m : ResMap} {k : String} {v : Int}
    (h : lookV m k = some v) : (k, v) ∈ m := by
  induction m with
  | nil => simp [lookV] at h
  | cons kv rest ih =>
    by_cases hk : kv.1 = k
    · simp [lookV, hk] at h
      have hkv : kv = (k, v) := by
        rcases kv with ⟨k1, v1⟩
        simp only [Prod.mk.injEq]
        exact ⟨hk, h⟩
      rw [← hkv]
      exact List.mem_cons_self _ _
    · simp [lookV, hk] at h
      exact List.mem_cons_of_mem _ (ih h)

theorem lookV_of_mem {m : ResMap} {k : String} {v : Int} (hnd : keysND m)
    (h : (k, v) ∈ m) : lookV m k = some v := by
  induction m with
  | nil => simp at h
  | cons kv rest ih =>
    obtain ⟨hk0, hnd2⟩ := keysND_cons hnd
    rcases List.mem_cons.mp h with h1 | h1
    · rw [← h1]
      simp [lookV]
    · have hk : ¬ kv.1 = k := by
        intro hk
        apply hk0
        unfold keys
        rw [hk]
        exact List.mem_map.mpr ⟨(k, v), h1, rfl⟩
      simp [lookV, hk]
      exact ih hnd2 h1

theorem keys_setVal_of_mem {m : ResMap} {k : String} (v : Int)
    (h : k ∈ keys m) : keys (setVal m k v) = keys m := by
  induction m with
  | nil => simp [keys] at h
  | cons kv rest ih =>
    by_cases hk : kv.1 = k
    · simp [setVal, hk, keys]
    · have h2 : ¬ k = kv.1 := fun hh => hk hh.symm
      have hmem : k ∈ keys rest := by
        simp only [keys, List.map_cons, List.mem_cons] at h
        rcases h with h | h
        · exact absurd h h2
        · exact h
      simp only [setVal, if_neg hk, keys, List.map_cons]
      have h3 := ih hmem
      simp only [keys] at h3
      rw [h3]

theorem keys_setVal_of_not_mem {m : ResMap} {k : String} (v : Int)
    (h : ¬ k ∈ keys m) : keys (setVal m k v) = keys m ++ [k] := by
  induction m with
  | nil => simp [setVal, keys]
  | cons kv rest ih =>
    have h1 : ¬ k = kv.1 ∧ ¬ k ∈ keys rest := by
      simp only [keys, List.map_cons, List.mem_cons] at h
      push_neg at h
      exact ⟨h.1, h.2⟩
    have hk : ¬ kv.1 = k := fun hh => h1.1 hh.symm
    simp only [setVal, if_neg hk, keys, List.map_cons, List.cons_append]
    have h3 := ih h1.2
    simp only [keys] at h3
    rw [h3]

theorem keysND_setVal {m : ResMap} (k : String) (v : Int) (hnd : keysND m) :
    keysND (setVal m k v) := by
  by_cases h : k ∈ keys m
  · unfold keysND
    rw [keys_setVal_of_mem v h]
    exact hnd
  · unfold keysND
    rw [keys_setVal_of_not_mem v h]
    unfold keysND at hnd
    rw [List.nodup_append]
    refine ⟨hnd, List.nodup_singleton k, ?_⟩
    intro x hx hx2
    simp at hx2
    rw [hx2] at hx
    exact h hx

theorem lookV_forRange (g : Int → String × Int → Option Int) (es : ResMap) :
    ∀ (init : ResMap), keysND es → ∀ k,
      lookV (forRange init es g) k =
        match lookV es k with
        | some v =>
          match g (lookD init k) (k, v) with
          | some w => some w
          | none => lookV init k
        | none => lookV init k := by
  induction es with
  | nil => intro init _ k; simp [forRange, lookV]
  | cons kv rest ih =>
    intro init hnd k
    obtain ⟨hk0, hnd2⟩ := keysND_cons hnd
    have hstep : forRange init (kv :: rest) g =
        forRange (match g (lookD init kv.1) kv with
                  | none => init
                  | some w => setVal init kv.1 w) rest g := by
      simp only [forRange, List.foldl_cons]
    rw [hstep]
    by_cases hk : k = kv.1
    · subst hk
      have hlrest : lookV rest kv.1 = none := by
        by_contra hc
        exact hk0 ((mem_keys_iff_lookV rest kv.1).mpr hc)
      rw [ih _ hnd2 kv.1, hlrest]
      have hlcons : lookV (kv :: rest) kv.1 = some kv.2 := by
        simp [lookV]
      rw [hlcons]
      rcases hg : g (lookD init kv.1) kv with _ | w
      · simp [hg]
      · simp [hg, lookV_setVal_self]
    · rw [ih _ hnd2 k]
      have hinit : lookV (match g (lookD init kv.1) kv with
          | none => init
          | some w => setVal init kv.1 w) k = lookV init k := by
        rcases hg : g (lookD init kv.1) kv with _ | w
        · rfl
        · exact lookV_setVal_ne init kv.1 w hk
      have h2 : ¬ kv.1 = k := fun hh => hk hh.symm
      have hlook : lookV (kv :: rest) k = lookV rest k := by
        simp [lookV, h2]
      rw [hlook]
      rcases hr : lookV rest k with _ | v
      · simp [hinit]
      · simp only [lookD] at hinit ⊢
        simp only [hinit]

theorem lookV_eq_none_of_not_mem {m : ResMap} {k : String}
    (h : ¬ k ∈ keys m) : lookV m k = none := by
  by_contra hc
  exact h ((mem_keys_iff_lookV m k).mpr hc)

theorem setVal_append {m : ResMap} {k : String} (v : Int)
    (h : ¬ k ∈ keys m) : setVal m k v = m ++ [(k, v)] := by
  induction m with
  | nil => simp [setVal]
  | cons kv rest ih =>
    have h1 : ¬ k = kv.1 ∧ ¬ k ∈ keys rest := by
      simp only [keys, List.map_cons, List.mem_cons] at h
      push_neg at h
      exact ⟨h.1, h.2⟩
    have hk : ¬ kv.1 = k := fun hh => h1.1 hh.symm
    simp [setVal, hk, ih h1.2]

/-- When every key of `es` is fresh for the accumulator, the update loop
appends one entry per kept element of `es`, each computed from current
value `0`. -/
theorem forRange_disjoint (g : Int → String × Int → Option Int) (es : ResMap) :
    ∀ acc : ResMap, keysND es → (∀ kv ∈ es, ¬ kv.1 ∈ keys acc) →
      forRange acc es g =
        acc ++ es.filterMap fun kv => (g 0 kv).map fun w => (kv.1, w) := by
  induction es with
  | nil => intro acc _ _; simp [forRange]
  | cons kv rest ih =>
    intro acc hnd hdisj
    obtain ⟨hk0, hnd2⟩ := keysND_cons hnd
    have hkacc : ¬ kv.1 ∈ keys acc := hdisj kv (List.mem_cons_self _ _)
    have hlacc : lookD acc kv.1 = 0 := by
      unfold lookD
      rw [lookV_eq_none_of_not_mem hkacc]
      rfl
    have hstep : forRange acc (kv :: rest) g =
        forRange (match g (lookD acc kv.1) kv with
                  | none => acc
                  | some w => setVal acc kv.1 w) rest g := by
      simp only [forRange, List.foldl_cons]
    rw [hstep, hlacc]
    rcases hg : g 0 kv with _ | w
    · rw [ih acc hnd2 (fun kv2 hm => hdisj kv2 (List.mem_cons_of_mem _ hm))]
      simp [List.filterMap_cons, hg]
    · have hset : setVal acc kv.1 w = acc ++ [(kv.1, w)] := setVal_append w hkacc
      have hdisj2 : ∀ kv2 ∈ rest, ¬ kv2.1 ∈ keys (acc ++ [(kv.1, w)]) := by
        intro kv2 hm hmem
        unfold keys at hmem
        rw [List.map_append, List.mem_append] at hmem
        rcases hmem with hmem | hmem
        · exact hdisj kv2 (List.mem_cons_of_mem _ hm) hmem
        · simp at hmem
          apply hk0
          unfold keys
          rw [← hmem]
          exact List.mem_map.mpr ⟨kv2, hm, rfl⟩
      show forRange (setVal acc kv.1 w) rest g = _
      rw [hset, ih (acc ++ [(kv.1, w)]) hnd2 hdisj2]
      simp [List.filterMap_cons, hg]

theorem keysND_forRange (g : Int → String × Int → Option Int) (es : ResMap) :
    ∀ init : ResMap, keysND init → keysND (forRange init es g) := by
  induction es with
  | nil => intro init h; simpa [forRange] using h
  | cons kv rest ih =>
    intro init h
    have hstep : forRange init (kv :: rest) g =
        forRange (match g (lookD init kv.1) kv with
                  | none => init
                  | some w => setVal init kv.1 w) rest g := by
      simp [forRange, List.foldl_cons]
    rw [hstep]
    apply ih
    rcases hg : g (lookD init kv.1) kv with _ | w
    · exact h
    · exact keysND_setVal _ _ h

/-! ### `DeepEquals` as equality of lookups -/

theorem keys_length (m : ResMap) : (keys m).length = m.length := by
  unfold keys
  exact List.length_map m Prod.fst

theorem DeepEquals_some_iff {l r : ResMap} (hl : keysND l) (hr : keysND r) :
    DeepEquals (some l) (some r) = true ↔ ∀ k, lookV l k = lookV r k := by
  have hPiff : ∀ kv : String × Int,
      ((match lookV r kv.1 with
        | some v => decide (v = kv.2)
        | none => false) = true) ↔ lookV r kv.1 = some kv.2 := by
    intro kv
    rcases hc : lookV r kv.1 with _ | w
    · simp
    · simp [eq_comm]
  constructor
  · intro h
    simp only [DeepEquals] at h
    by_cases hlen : r.length ≠ l.length
    · rw [if_pos hlen] at h
      exact absurd h (by simp)
    · rw [if_neg hlen] at h
      push_neg at hlen
      have hall := List.all_eq_true.mp h
      have hmemr : ∀ kv ∈ l, lookV r kv.1 = some kv.2 := by
        intro kv hm
        exact (hPiff kv).mp (hall kv hm)
      have hsub : (keys l).toFinset ⊆ (keys r).toFinset := by
        intro x hx
        rw [List.mem_toFinset] at hx ⊢
        obtain ⟨v, hv⟩ := Option.ne_none_iff_exists'.mp
          ((mem_keys_iff_lookV l x).mp hx)
        have := hmemr (x, v) (mem_of_lookV hv)
        exact (mem_keys_iff_lookV r x).mpr (by simp [this])
      have hcard : (keys r).toFinset.card ≤ (keys l).toFinset.card := by
        rw [List.toFinset_card_of_nodup hl, List.toFinset_card_of_nodup hr,
          keys_length, keys_length, hlen]
      have hfeq := Finset.eq_of_subset_of_card_le hsub hcard
      intro k
      rcases hc : lookV l k with _ | v
      · have hknl : ¬ k ∈ keys l := by
          rw [mem_keys_iff_lookV]
          simp [hc]
        have hknr : ¬ k ∈ keys r := by
          intro hmem
          apply hknl
          rw [← List.mem_toFinset, ← hfeq, List.mem_toFinset] at hmem
          exact hmem
        rw [lookV_eq_none_of_not_mem hknr]
      · exact (hmemr (k, v) (mem_of_lookV hc)).symm
  · intro hlook
    have hmems : ∀ x, x ∈ keys l ↔ x ∈ keys r := by
      intro x
      rw [mem_keys_iff_lookV, mem_keys_iff_lookV, hlook x]
    have hlen : r.length = l.length := by
      rw [← keys_length, ← keys_length]
      rw [← List.toFinset_card_of_nodup hl, ← List.toFinset_card_of_nodup hr]
      congr 1
      exact Finset.ext fun x => by
        rw [List.mem_toFinset, List.mem_toFinset]
        exact (hmems x).symm
    simp only [DeepEquals]
    rw [if_neg (by omega)]
    apply List.all_eq_true.mpr
    intro kv hm
    apply (hPiff kv).mpr
    rw [← hlook kv.1]
    exact lookV_of_mem hl hm

theorem DeepEquals_refl {l : ResMap} (hl : keysND l) :
    DeepEquals (some l) (some l) = true :=
  (DeepEquals_some_iff hl hl).mpr fun _ => rfl

/-! ### The `fitIn` loop -/

theorem fitInLoop_iff (rmap : ResMap) (skip : Bool) (m : ResMap) :
    fitInLoop rmap skip m = true ↔
      ∀ kv ∈ m, (skip = true ∧ lookV rmap kv.1 = none) ∨
        kv.2 ≤ max 0 (lookD rmap kv.1) := by
  induction m with
  | nil => simp [fitInLoop]
  | cons kv rest ih =>
    unfold fitInLoop
    by_cases hs : skip = true ∧ lookV rmap kv.1 = none
    · rw [if_pos hs]
      simp only [List.mem_cons, ih]
      constructor
      · intro h kv2 hm
        rcases hm with hm | hm
        · rw [hm]; exact Or.inl hs
        · exact h kv2 hm
      · intro h kv2 hm
        exact h kv2 (Or.inr hm)
    · rw [if_neg hs]
      by_cases hcmp : max 0 (lookD rmap kv.1) < kv.2
      · rw [if_pos hcmp]
        simp only [List.mem_cons]
        constructor
        · intro h; exact absurd h (by simp)
        · intro h
          rcases h kv (Or.inl rfl) with h1 | h1
          · exact absurd h1 hs
          · omega
      · rw [if_neg hcmp]
        simp only [List.mem_cons, ih]
        constructor
        · intro h kv2 hm
          rcases hm with hm | hm
          · rw [hm]; right; omega
          · exact h kv2 hm
        · intro h kv2 hm
          exact h kv2 (Or.inr hm)

/-! ### `getShares`: sortedness and content -/

theorem pad_perm (total : Resource) (m : ResMap) :
    ((m.filter fun kv : String × Int => decide (kv.2 ≠ 0)).map
        (fun kv : String × Int => shareOf total kv.1 kv.2)
      ++ List.replicate
          (m.length -
            ((m.filter fun kv : String × Int => decide (kv.2 ≠ 0)).map
              (fun kv : String × Int => shareOf total kv.1 kv.2)).length) 0).Perm
    (m.map fun kv : String × Int =>
      if kv.2 = 0 then 0 else shareOf total kv.1 kv.2) := by
  induction m with
  | nil => simp
  | cons kv rest ih =>
    by_cases h : kv.2 = 0
    · have hfil : (kv :: rest).filter (fun kv => decide (kv.2 ≠ 0))
          = rest.filter (fun kv => decide (kv.2 ≠ 0)) := by
        simp [List.filter_cons, h]
      rw [hfil]
      have hlen : (kv :: rest).length -
          ((rest.filter (fun kv => decide (kv.2 ≠ 0))).map
            (fun kv => shareOf total kv.1 kv.2)).length
          = (rest.length -
              ((rest.filter (fun kv => decide (kv.2 ≠ 0))).map
                (fun kv => shareOf total kv.1 kv.2)).length) + 1 := by
        have hle := List.length_filter_le (fun kv => decide (kv.2 ≠ 0)) rest
        simp only [List.length_cons, List.length_map]
        omega
      rw [hlen, List.replicate_succ]
      simp only [List.map_cons, if_pos h]
      exact List.perm_middle.trans (List.Perm.cons 0 ih)
    · have hfil : (kv :: rest).filter (fun kv : String × Int => decide (kv.2 ≠ 0))
          = kv :: rest.filter (fun kv : String × Int => decide (kv.2 ≠ 0)) := by
        simp [List.filter_cons, h]
      rw [hfil]
      simp only [List.map_cons, List.length_cons, List.cons_append, if_neg h,
        List.length_map]
      have hlen : rest.length + 1 -
          ((rest.filter (fun kv : String × Int => decide (kv.2 ≠ 0))).length + 1)
          = rest.length -
            (rest.filter (fun kv : String × Int => decide (kv.2 ≠ 0))).length := by
        omega
      rw [hlen]
      apply List.Perm.cons
      have := ih
      simpa [List.length_map] using this

theorem getShares_sorted (res total : Resource) :
    (getShares res total).Sorted (· ≤ ·) := by
  unfold getShares
  rcases res with _ | m
  · simp
  · by_cases h : m.length = 0
    · simp [h]
    · simp only [if_neg h]
      exact List.sorted_insertionSort _ _

theorem getShares_perm (res total : Resource) :
    (getShares res total).Perm
      ((res.getD []).map fun kv => if kv.2 = 0 then 0 else shareOf total kv.1 kv.2) := by
  unfold getShares
  rcases res with _ | m
  · simp
  · by_cases h : m.length = 0
    · have hm : m = [] := List.length_eq_zero.mp h
      simp [h, hm]
    · simp only [if_neg h, Option.getD_some]
      exact (List.perm_insertionSort _ _).trans (pad_perm total m)

theorem sorted_getLast?_eq_max? :
    ∀ (l : List ℚ), l.Sorted (· ≤ ·) → l.getLast? = l.max? := by
  intro l
  induction l with
  | nil => intro _; rfl
  | cons x xs ih =>
    intro h
    cases xs with
    | nil => simp [List.max?_cons']
    | cons y t =>
      have hxy : x ≤ y := (List.sorted_cons.mp h).1 y (by simp)
      have htail : (y :: t).Sorted (· ≤ ·) := (List.sorted_cons.mp h).2
      rw [List.getLast?_cons_cons, ih htail, List.max?_cons', List.max?_cons']
      congr 1
      simp only [List.foldl_cons]
      rw [max_eq_right hxy]

theorem lastOrZero_eq_maxOrZero {l : List ℚ} (h : l.Sorted (· ≤ ·)) :
    lastOrZero l = maxOrZero l := by
  unfold lastOrZero maxOrZero
  rw [sorted_getLast?_eq_max? l h]

/-! ### Heap model lemmas -/

theorem readH_append (σ : Heap) (m : ResMap) {a : Nat}
    (ha : a < σ.cells.length) : readH ⟨σ.cells ++ [m]⟩ a = readH σ a := by
  unfold readH
  simp only []
  rw [List.getElem?_append]
  rw [if_pos ha]

theorem readH_writeH_ne (σ : Heap) (i : Nat) (m : ResMap) {a : Nat}
    (ha : a ≠ i) : readH (writeH σ i m) a = readH σ a := by
  unfold readH writeH
  simp only []
  rw [List.getElem?_set_ne (Ne.symm ha)]

theorem foldWrite_read_ne (out : Nat)
    (gstep : ResMap → String × Int → ResMap) (es : List (String × Int)) :
    ∀ (τ : Heap) (a : Nat), a ≠ out →
      readH (es.foldl (fun σ2 kv => writeH σ2 out (gstep (readH σ2 out) kv)) τ) a
        = readH τ a := by
  induction es with
  | nil => intro τ a _; rfl
  | cons kv rest ih =>
    intro τ a ha
    rw [List.foldl_cons, ih _ a ha]
    exact readH_writeH_ne _ _ _ ha

theorem heapBinOp_none_left (f : Int → Int → Int) (σ : Heap) (z : Nat)
    (r : Option Nat) : heapBinOp f σ z none r = heapBinOp f σ z (some z) r := rfl

theorem heapBinOp_fresh_some (f : Int → Int → Int) (σ : Heap) (z la : Nat)
    (r : Option Nat) : (heapBinOp f σ z (some la) r).2 = some σ.cells.length := by
  cases r <;> rfl

theorem heapBinOp_fresh (f : Int → Int → Int) (σ : Heap) (z : Nat)
    (l r : Option Nat) : (heapBinOp f σ z l r).2 = some σ.cells.length := by
  cases l with
  | none => rw [heapBinOp_none_left]; exact heapBinOp_fresh_some f σ z z r
  | some la => exact heapBinOp_fresh_some f σ z la r

theorem heapBinOp_preserve_some (f : Int → Int → Int) (σ : Heap) (z la : Nat)
    (r : Option Nat) {a : Nat} (ha : a < σ.cells.length) :
    readH (heapBinOp f σ z (some la) r).1 a = readH σ a := by
  have hane : a ≠ σ.cells.length := by omega
  cases r with
  | none =>
    show readH ⟨σ.cells ++ [readH σ la]⟩ a = readH σ a
    exact readH_append σ _ ha
  | some rb =>
    show readH ((readH ⟨σ.cells ++ [readH σ la]⟩ rb).foldl
        (fun τ kv => writeH τ σ.cells.length
          (setVal (readH τ σ.cells.length) kv.1
            (f (lookD (readH τ σ.cells.length) kv.1) kv.2)))
        ⟨σ.cells ++ [readH σ la]⟩) a = readH σ a
    rw [foldWrite_read_ne σ.cells.length
      (fun m kv => setVal m kv.1 (f (lookD m kv.1) kv.2)) _ _ a hane]
    exact readH_append σ _ ha

theorem heapBinOp_preserve (f : Int → Int → Int) (σ : Heap) (z : Nat)
    (l r : Option Nat) {a : Nat} (ha : a < σ.cells.length) :
    readH (heapBinOp f σ z l r).1 a = readH σ a := by
  cases l with
  | none => rw [heapBinOp_none_left]; exact heapBinOp_preserve_some f σ z z r ha
  | some la => exact heapBinOp_preserve_some f σ z la r ha

/-! ### Claim theorems -/

/-- C1: `FitIn(larger, smaller)` is true iff, for every key present in
`smaller`, `larger`'s value for that key (absent treated as 0, negative
values on the larger side treated as 0) is at least `smaller`'s value; a
nil `smaller` always fits and a nil `larger` behaves as the all-zero
(empty) vector.  `FitInMaxUndef` is identical except that a key present in
`smaller` but absent from `larger` is automatically satisfied. -/
theorem c1_fitIn_spec (r s : Resource) (hs : keysND (s.getD [])) :
    (FitIn r s = true ↔
      ∀ k v, lookV (s.getD []) k = some v → v ≤ max 0 (lookD (r.getD []) k)) ∧
    (FitInMaxUndef r s = true ↔
      ∀ k v, lookV (s.getD []) k = some v → lookV (r.getD []) k ≠ none →
        v ≤ max 0 (lookD (r.getD []) k)) := by
  rcases s with _ | m
  · constructor
    · constructor
      · intro _ k v hv
        simp [lookV] at hv
      · intro _
        rfl
    · constructor
      · intro _ k v hv
        simp [lookV] at hv
      · intro _
        rfl
  · simp only [Option.getD_some] at hs ⊢
    have hmem_iff : ∀ P : String → Int → Prop,
        (∀ kv ∈ m, P kv.1 kv.2) ↔ (∀ k v, lookV m k = some v → P k v) := by
      intro P
      constructor
      · intro h k v hkv
        exact h (k, v) (mem_of_lookV hkv)
      · intro h kv hm
        exact h kv.1 kv.2 (lookV_of_mem hs hm)
    constructor
    · show fitInLoop (r.getD []) false m = true ↔ _
      rw [fitInLoop_iff]
      have h1 : ∀ kv : String × Int,
          ((false = true ∧ lookV (r.getD []) kv.1 = none) ∨
            kv.2 ≤ max 0 (lookD (r.getD []) kv.1)) ↔
          kv.2 ≤ max 0 (lookD (r.getD []) kv.1) := by
        intro kv
        simp
      rw [forall₂_congr fun kv _ => h1 kv]
      exact hmem_iff fun k v => v ≤ max 0 (lookD (r.getD []) k)
    · show fitInLoop (r.getD []) true m = true ↔ _
      rw [fitInLoop_iff]
      have h1 : ∀ kv : String × Int,
          ((true = true ∧ lookV (r.getD []) kv.1 = none) ∨
            kv.2 ≤ max 0 (lookD (r.getD []) kv.1)) ↔
          (lookV (r.getD []) kv.1 ≠ none → kv.2 ≤ max 0 (lookD (r.getD []) kv.1)) := by
        intro kv
        constructor
        · intro h hne
          rcases h with ⟨_, h⟩ | h
          · exact absurd h hne
          · exact h
        · intro h
          by_cases hc : lookV (r.getD []) kv.1 = none
          · exact Or.inl ⟨rfl, hc⟩
          · exact Or.inr (h hc)
      rw [forall₂_congr fun kv _ => h1 kv]
      exact hmem_iff fun k v =>
        lookV (r.getD []) k ≠ none → v ≤ max 0 (lookD (r.getD []) k)

/-- C1 witness: concrete instance `FitInMaxUndef({cpu:5}, {memory:10})`. -/
theorem c1_fitIn_spec_witness :
    keysND ((some [("memory", 10)] : Resource).getD []) ∧
      (FitIn (some [("cpu", 5)]) (some [("memory", 10)]) = true ↔
        ∀ k v, lookV ((some [("memory", 10)] : Resource).getD []) k = some v →
          v ≤ max 0 (lookD ((some [("cpu", 5)] : Resource).getD []) k)) :=
  ⟨by decide, (c1_fitIn_spec (some [("cpu", 5)]) (some [("memory", 10)])
    (by decide)).1⟩

/-- C2 counterexample: the claim requires `subVal(a, b)` to be the clamped
mathematically-correct difference for every `b` including `MinInt64`, but
`subVal(0, MinInt64)` returns `MinInt64` while the correctly clamped
difference `0 - MinInt64` is `MaxInt64`. -/
theorem c2_counterexample :
    subVal 0 minI64 = minI64 ∧ clampI (0 - minI64) = maxI64 ∧
      minI64 ≠ maxI64 := by
  refine ⟨by decide, by decide, by decide⟩

/-- C2 (amended): `addVal` and `mulVal` return the mathematically-correct
result clamped to the `int64` bounds for all in-range operands, and
`mulValRatio` (under the exact-arithmetic model of `float64`) returns the
toward-zero truncation of the product, clamped.  `subVal(a,b)` equals
`addVal(a, -b)` with two's-complement negation, so it is the correctly
clamped difference for every `b` except `b = MinInt64`, where it instead
behaves as `addVal(a, MinInt64)`. -/
theorem c2_scalar_ops_clamped (a b : Int) (ha : inRange a) (hb : inRange b) :
    addVal a b = clampI (a + b) ∧
    subVal a b = addVal a (wrap64 (-b)) ∧
    (b ≠ minI64 → subVal a b = clampI (a - b)) ∧
    mulVal a b = clampI (a * b) ∧
    (∀ r : ℚ, mulValRatio a r = clampI (truncQ ((a : ℚ) * r))) :=
  ⟨addVal_correct ha hb, subVal_eq_addVal a b,
    fun h => subVal_correct ha hb h, mulVal_correct ha hb,
    fun r => mulValRatio_correct a r⟩

/-- C2 witness at `a = 3`, `b = -2`. -/
theorem c2_scalar_ops_clamped_witness :
    inRange 3 ∧ inRange (-2) ∧ addVal 3 (-2) = clampI (3 + -2) :=
  ⟨by decide, by decide, (c2_scalar_ops_clamped 3 (-2) (by decide) (by decide)).1⟩

/-- C3: `compareShares` walks both lists from their last elements downward;
the first position where the values differ decides the 1, 0, -1 result; when
one list is exhausted the remaining elements of the longer list decide the
result by their own sign (zero continues the scan); two simultaneously
exhausted lists are equal. -/
theorem c3_compareShares_spec (ls rs : List ℚ) (x y : ℚ) :
    compareShares [] [] = 0 ∧
    compareShares (ls ++ [x]) (rs ++ [y]) =
      (if y < x then 1 else if x < y then -1 else compareShares ls rs) ∧
    compareShares (ls ++ [x]) [] =
      (if 0 < x then 1 else if x < 0 then -1 else compareShares ls []) ∧
    compareShares [] (rs ++ [y]) =
      (if 0 < y then -1 else if y < 0 then 1 else compareShares [] rs) := by
  refine ⟨by simp [compareShares, cmpRev], ?_, ?_, ?_⟩
  · simp only [compareShares, List.reverse_append, List.reverse_cons,
      List.reverse_nil, List.nil_append, List.cons_append, cmpRev]
  · simp only [compareShares, List.reverse_append, List.reverse_cons,
      List.reverse_nil, List.nil_append, List.cons_append, cmpRev]
  · simp only [compareShares, List.reverse_append, List.reverse_cons,
      List.reverse_nil, List.nil_append, List.cons_append, cmpRev]

/-- C6: vector-level clamping: adding 1 to a maxed-out quantity stays at
`MaxInt64`, and multiplying a `MinInt64` quantity by -1 clamps to
`MaxInt64` (the documented special overflow case). -/
theorem c6_vector_clamping :
    Add (some [("x", maxI64)]) (some [("x", 1)]) = some [("x", maxI64)] ∧
    Multiply (some [("x", minI64)]) (-1) = some [("x", maxI64)] := by
  refine ⟨by decide, by decide⟩

/-- C4 counterexample: the claim says zero-valued entries are skipped
entirely so that the share list is exactly sized to the nonzero entries;
but for `{a:5, b:0}` the code returns a list of length 2 (the slice is
allocated at full map length and the skipped slot stays 0), not `[5]`. -/
theorem c4_counterexample :
    getShares (some [("a", 5), ("b", 0)]) none = [0, 5] ∧
      getShares (some [("a", 5), ("b", 0)]) none ≠ [5] := by
  refine ⟨by decide, by decide⟩

/-- C4 (amended): `getShares(res, total)` returns an ascending-sorted list
with exactly one share per entry of `res`: a nonzero entry contributes
`value/total[key]` (falling back to the raw value when `total` is null or
its entry is 0), while an entry with value exactly 0 contributes a 0.0
share (the slice is allocated at the full map length and skipped slots
keep their zero initialisation); a null or empty `res` yields `[]`. -/
theorem c4_getShares_spec (res total : Resource) :
    (getShares res total).Sorted (· ≤ ·) ∧
    (getShares res total).Perm
      ((res.getD []).map fun kv : String × Int =>
        if kv.2 = 0 then 0 else shareOf total kv.1 kv.2) ∧
    getShares none total = [] ∧ getShares (some []) total = [] :=
  ⟨getShares_sorted res total, getShares_perm res total, rfl, rfl⟩

/-- C5 counterexample: the claim says any division by zero is normalized
to 1.0, but with left shares `[1]` and no right shares the code computes
`1/0 = +Inf`, which is not NaN and is returned as is. -/
theorem c5_counterexample :
    FairnessRatio (some [("a", 1)]) none none = FVal.posInf ∧
      FVal.posInf ≠ FVal.fin 1 := by
  refine ⟨by decide, by decide⟩

/-- C5 (amended): `FairnessRatio` divides the single largest share of left
by the single largest share of right (0 when a share list is empty); only
the `0/0` (NaN) case is normalized to 1.0, while a nonzero numerator over
a zero denominator yields the corresponding signed infinity. -/
theorem c5_fairnessRatio_spec (left right total : Resource) :
    FairnessRatio left right total =
      (if maxOrZero (getShares right total) = 0 then
        (if maxOrZero (getShares left total) = 0 then FVal.fin 1
         else if 0 < maxOrZero (getShares left total) then FVal.posInf
         else FVal.negInf)
       else FVal.fin
         (maxOrZero (getShares left total) / maxOrZero (getShares right total))) := by
  simp only [FairnessRatio]
  rw [lastOrZero_eq_maxOrZero (getShares_sorted left total),
      lastOrZero_eq_maxOrZero (getShares_sorted right total)]
  simp only [fdiv]
  by_cases hr : maxOrZero (getShares right total) = 0
  · rw [if_pos hr, if_pos hr]
    by_cases hl : maxOrZero (getShares left total) = 0
    · rw [if_pos hl, if_pos hl]
      rfl
    · rw [if_neg hl, if_neg hl]
      by_cases hp : 0 < maxOrZero (getShares left total)
      · rw [if_pos hp]
        rfl
      · rw [if_neg hp]
        rfl
  · rw [if_neg hr, if_neg hr]
    rfl

/-- The per-key value of `CalculateAbsUsedCapacity` equals the spec
formula: truncated percentage capped at `MaxInt32`. -/
theorem absUsedValue_spec (cv uv : Int) :
    absUsedValue cv uv =
      if uv ≤ 0 then 0
      else if cv ≤ 0 then 100
      else min maxI32 (truncQ ((uv : ℚ) / (cv : ℚ) * 100)) := by
  unfold absUsedValue
  by_cases hu : uv ≤ 0
  · rw [if_pos hu, if_pos hu]
  · rw [if_neg hu, if_neg hu]
    by_cases hcv : cv ≤ 0
    · rw [if_pos hcv, if_pos hcv]
    · rw [if_neg hcv, if_neg hcv]
      push_neg at hu hcv
      have hdpos : 0 < (uv : ℚ) / (cv : ℚ) * 100 := by
        apply mul_pos
        · apply div_pos
          · exact_mod_cast hu
          · exact_mod_cast hcv
        · norm_num
      have htr : truncQ ((uv : ℚ) / (cv : ℚ) * 100)
          = ⌊(uv : ℚ) / (cv : ℚ) * 100⌋ := by
        unfold truncQ
        rw [if_neg (by linarith)]
      by_cases hd : (maxI32 : ℚ) < (uv : ℚ) / (cv : ℚ) * 100
      · rw [if_pos hd]
        have h1 : maxI32 ≤ truncQ ((uv : ℚ) / (cv : ℚ) * 100) := by
          rw [htr, Int.le_floor]
          exact le_of_lt hd
        rw [min_eq_left h1]
      · rw [if_neg hd]
        push_neg at hd
        have h1 : truncQ ((uv : ℚ) / (cv : ℚ) * 100) ≤ maxI32 := by
          rw [htr]
          have h2 := Int.floor_le_floor hd
          rwa [Int.floor_intCast] at h2
        rw [min_eq_right h1]

/-- C7: `CalculateAbsUsedCapacity(capacity, usage)` keeps, for every key
of `capacity` that is also present in `usage`, the value 0 when usage is
non-positive, 100 when capacity is non-positive, and otherwise
`usage/capacity*100` truncated toward zero and capped at `MaxInt32`;
keys absent from `usage` are omitted, nil inputs yield an empty result,
and the two concrete examples from the spec hold. -/
theorem c7_absUsedCapacity_spec (c u : ResMap) (hc : keysND c) :
    CalculateAbsUsedCapacity (some c) (some u) =
      some (c.filterMap fun kv : String × Int =>
        (lookV u kv.1).map fun uv =>
          (kv.1, if uv ≤ 0 then 0 else if kv.2 ≤ 0 then 100
                 else min maxI32 (truncQ ((uv : ℚ) / (kv.2 : ℚ) * 100)))) ∧
    (∀ x : Resource, CalculateAbsUsedCapacity none x = some [] ∧
      CalculateAbsUsedCapacity x none = some []) ∧
    CalculateAbsUsedCapacity (some [("memory", 1000)]) (some [("memory", 100)])
      = some [("memory", 10)] ∧
    CalculateAbsUsedCapacity (some [("memory", 0)]) (some [("memory", 5)])
      = some [("memory", 100)] := by
  refine ⟨?_, ?_, ?_, by decide⟩
  · simp only [CalculateAbsUsedCapacity]
    rw [forRange_disjoint _ c [] hc (by intro kv _ hmem; simp [keys] at hmem)]
    rw [List.nil_append]
    congr 1
    apply List.filterMap_congr
    intro kv _
    rcases hlu : lookV u kv.1 with _ | uv
    · simp
    · simp [absUsedValue_spec]
  · intro x
    exact ⟨by cases x <;> rfl, by cases x <;> rfl⟩
  · simp only [CalculateAbsUsedCapacity, forRange, List.foldl_cons, List.foldl_nil,
      lookV, lookD, setVal]
    norm_num [absUsedValue, truncQ, maxI32]

/-- C7 witness: the first concrete example instantiated through the
theorem. -/
theorem c7_absUsedCapacity_spec_witness :
    keysND [("memory", 1000)] ∧
      CalculateAbsUsedCapacity (some [("memory", 1000)]) (some [("memory", 100)])
        = some [("memory", 10)] :=
  ⟨by decide, (c7_absUsedCapacity_spec [("memory", 1000)] [("memory", 100)]
    (by decide)).2.2.1⟩

/-- C8: on the heap model, `Add` and `Sub` never mutate any pre-existing
cell (in particular neither input), and the returned resource is a freshly
allocated cell distinct from both input pointers. -/
theorem c8_add_sub_no_mutation (σ : Heap) (z : Nat) (l r : Option Nat)
    (hl : ∀ a, l = some a → a < σ.cells.length)
    (hr : ∀ a, r = some a → a < σ.cells.length) :
    (∀ a, a < σ.cells.length → readH (AddH σ z l r).1 a = readH σ a) ∧
    (∀ a, a < σ.cells.length → readH (SubH σ z l r).1 a = readH σ a) ∧
    (AddH σ z l r).2 ≠ l ∧ (AddH σ z l r).2 ≠ r ∧
    (SubH σ z l r).2 ≠ l ∧ (SubH σ z l r).2 ≠ r := by
  have hne : ∀ (p : Option Nat), (∀ a, p = some a → a < σ.cells.length) →
      some σ.cells.length ≠ p := by
    intro p hp heq
    rcases p with _ | pa
    · exact Option.noConfusion heq
    · have h1 := hp pa rfl
      have h2 : σ.cells.length = pa := by injection heq
      omega
  have hfA : (AddH σ z l r).2 = some σ.cells.length :=
    heapBinOp_fresh addVal σ z l r
  have hfS : (SubH σ z l r).2 = some σ.cells.length :=
    heapBinOp_fresh subVal σ z l r
  exact ⟨fun a ha => heapBinOp_preserve addVal σ z l r ha,
    fun a ha => heapBinOp_preserve subVal σ z l r ha,
    by rw [hfA]; exact hne l hl,
    by rw [hfA]; exact hne r hr,
    by rw [hfS]; exact hne l hl,
    by rw [hfS]; exact hne r hr⟩

/-- C8 witness: a one-cell heap, both operands pointing at cell 0. -/
theorem c8_add_sub_no_mutation_witness :
    (∀ a, (some 0 : Option Nat) = some a →
      a < (⟨[[("x", 1)]]⟩ : Heap).cells.length) ∧
    readH (AddH ⟨[[("x", 1)]]⟩ 0 (some 0) (some 0)).1 0
      = readH ⟨[[("x", 1)]]⟩ 0 := by
  have hl : ∀ a, (some 0 : Option Nat) = some a →
      a < (⟨[[("x", 1)]]⟩ : Heap).cells.length := by
    intro a h
    have h2 : 0 = a := by injection h
    rw [← h2]
    decide
  exact ⟨hl, (c8_add_sub_no_mutation ⟨[[("x", 1)]]⟩ 0 (some 0) (some 0)
    hl hl).1 0 (by decide)⟩

/-- C9: `Add` is commutative under `DeepEquals`: for all resources with
valid (distinct-key, in-range) contents, including nil, `Add(a,b)` and
`Add(b,a)` have the same key set and the same value at every key. -/
theorem c9_add_commutative (a b : Resource) (ha : resOK a) (hb : resOK b) :
    DeepEquals (Add a b) (Add b a) = true := by
  obtain ⟨hand, hav⟩ := ha
  obtain ⟨hbnd, hbv⟩ := hb
  have hAdd : ∀ x y : Resource, Add x y =
      some (forRange (x.getD []) (y.getD [])
        fun cur kv => some (addVal cur kv.2)) := by
    intro x y
    cases y <;> rfl
  rw [hAdd a b, hAdd b a]
  apply (DeepEquals_some_iff
    (keysND_forRange _ _ _ hand) (keysND_forRange _ _ _ hbnd)).mpr
  intro k
  rw [lookV_forRange _ (b.getD []) (a.getD []) hbnd k,
      lookV_forRange _ (a.getD []) (b.getD []) hand k]
  rcases hak : lookV (a.getD []) k with _ | x <;>
    rcases hbk : lookV (b.getD []) k with _ | y
  · simp
  · have hy := hbv (k, y) (mem_of_lookV hbk)
    simp [lookD, hak, hbk, addVal_zero_left hy]
  · have hx := hav (k, x) (mem_of_lookV hak)
    simp [lookD, hak, hbk, addVal_zero_left hx]
  · have hx := hav (k, x) (mem_of_lookV hak)
    have hy := hbv (k, y) (mem_of_lookV hbk)
    simp [lookD, hak, hbk, addVal_comm hx hy]

/-- C9 witness at `a = {x:2}`, `b = {y:3}`. -/
theorem c9_add_commutative_witness :
    resOK (some [("x", 2)]) ∧
      DeepEquals (Add (some [("x", 2)]) (some [("y", 3)]))
        (Add (some [("y", 3)]) (some [("x", 2)])) = true :=
  ⟨by decide, c9_add_commutative (some [("x", 2)]) (some [("y", 3)])
    (by decide) (by decide)⟩

/-- C10: `ComponentWiseMax` returns an empty (but non-nil) vector whenever
either operand is nil, even when the other operand is non-empty — it
discards the non-nil operand — whereas `ComponentWiseMin` with exactly one
nil operand returns a clone of the other operand, so for a non-empty `v`,
`ComponentWiseMax(v, nil)` is empty while `ComponentWiseMin(v, nil)` is
`DeepEquals` to `v`. -/
theorem c10_componentwise_nil (v : ResMap) (hv : keysND v) (_hne : v ≠ []) :
    ComponentWiseMax (some v) none = some [] ∧
    (∀ w : Resource, ComponentWiseMax w none = some [] ∧
      ComponentWiseMax none w = some []) ∧
    DeepEquals (ComponentWiseMin (some v) none) (some v) = true := by
  refine ⟨rfl, ?_, ?_⟩
  · intro w
    exact ⟨by cases w <;> rfl, by cases w <;> rfl⟩
  · show DeepEquals (some v) (some v) = true
    exact DeepEquals_refl hv

/-- C10 witness at `v = {x:1}`. -/
theorem c10_componentwise_nil_witness :
    keysND [("x", 1)] ∧ ([("x", 1)] : ResMap) ≠ [] ∧
      ComponentWiseMax (some [("x", 1)]) none = some [] :=
  ⟨by decide, by decide,
    (c10_componentwise_nil [("x", 1)] (by decide) (by decide)).1⟩

end YuniKorn
